import Mathlib

/-!
Verification of the tic-tac-toe engine, players, statistics and console
driver of the repository, via a shallow embedding of the Python sources
(`tictactoe/game.py`, `tictactoe/players.py`, `tictactoe/utils.py`,
`tictactoe/interface.py`) into Lean.

Conventions of the embedding:
* a board cell holds one of the characters `' '`, `'X'`, `'O'`; these are
  modelled by the inductive type `Cell`;
* the Python list `board` of nine characters is a `List Cell`;
* Python integers are `Int` (positions may be negative) or `Nat` where the
  source only ever produces naturals (indices from `range(9)`);
* methods that mutate `self` are modelled as functions returning the new
  object, paired with the Python return value where there is one;
* the recursive `_minimax` is given a fuel argument for termination; every
  call in the source explores a strictly shrinking board, so any fuel at
  least the number of empty cells (and 9 in particular, as used by
  `SmartAI.get_move`) reproduces the source behaviour exactly;
* `float('-inf')` / `float('inf')` are modelled by the integer sentinels
  `-1000` / `1000`: every score produced by `_evaluate_board` lies in
  `{-10, 0, 10}`, so the sentinels compare exactly like the infinities do.
-/

/-- A board cell: the characters `' '`, `'X'`, `'O'` of the source. -/
inductive Cell where
  | empty
  | X
  | O
deriving DecidableEq

/-- The `GameState` enum of `game.py`. -/
inductive GameState where
  | ONGOING
  | X_WINS
  | O_WINS
  | DRAW
deriving DecidableEq

/-- The `TicTacToe` object of `game.py`: its five mutable attributes. -/
structure TicTacToe where
  board : List Cell
  current_player : Cell
  game_state : GameState
  moves_count : Nat
  winner : Option Cell
  winning_pattern : Option (Nat × Nat × Nat)
deriving DecidableEq

/-- Source `TicTacToe.WIN_PATTERNS`: rows, then columns, then diagonals. -/
def WIN_PATTERNS : List (Nat × Nat × Nat) :=
  [(0, 1, 2), (3, 4, 5), (6, 7, 8),
   (0, 3, 6), (1, 4, 7), (2, 5, 8),
   (0, 4, 8), (2, 4, 6)]

/-- Source `TicTacToe.__init__`: fresh game. -/
def TicTacToe.init : TicTacToe :=
  { board := List.replicate 9 Cell.empty
    current_player := Cell.X
    game_state := GameState.ONGOING
    moves_count := 0
    winner := none
    winning_pattern := none }

/-- Source `TicTacToe.reset`: reassigns every attribute to its initial value. -/
def TicTacToe.reset (_g : TicTacToe) : TicTacToe :=
  { board := List.replicate 9 Cell.empty
    current_player := Cell.X
    game_state := GameState.ONGOING
    moves_count := 0
    winner := none
    winning_pattern := none }

/-- Source `TicTacToe.is_valid_move`: `0 <= position <= 8`, the cell is empty and
the game is ongoing. -/
def TicTacToe.is_valid_move (g : TicTacToe) (position : Int) : Bool :=
  decide (0 ≤ position ∧ position ≤ 8 ∧
    g.board.getD position.toNat Cell.empty = Cell.empty ∧
    g.game_state = GameState.ONGOING)

/-- The `for pattern in self.WIN_PATTERNS` loop of `_update_game_state`:
first pattern whose three cells are equal and non-empty, with the mark. -/
def updateScan (board : List Cell) : List (Nat × Nat × Nat) → Option (Cell × (Nat × Nat × Nat))
  | [] => none
  | (a, b, c) :: rest =>
    if board.getD a Cell.empty = board.getD b Cell.empty ∧
       board.getD b Cell.empty = board.getD c Cell.empty ∧
       board.getD a Cell.empty ≠ Cell.empty then
      some (board.getD a Cell.empty, (a, b, c))
    else updateScan board rest

/-- Source `TicTacToe._update_game_state`: record a win on the first completed
pattern, otherwise declare a draw when nine moves have been made. -/
def TicTacToe._update_game_state (g : TicTacToe) : TicTacToe :=
  match updateScan g.board WIN_PATTERNS with
  | some (w, p) =>
    { g with winner := some w
             winning_pattern := some p
             game_state := if w = Cell.X then GameState.X_WINS else GameState.O_WINS }
  | none =>
    if g.moves_count = 9 then { g with game_state := GameState.DRAW } else g

/-- Source `TicTacToe.make_move`: returns the Python return value paired with the
state of the object after the call. -/
def TicTacToe.make_move (g : TicTacToe) (position : Int) : Bool × TicTacToe :=
  if g.is_valid_move position then
    let g1 := { g with board := g.board.set position.toNat g.current_player
                       moves_count := g.moves_count + 1 }
    let g2 := g1._update_game_state
    let g3 := if g2.game_state = GameState.ONGOING then
        { g2 with current_player := if g2.current_player = Cell.X then Cell.O else Cell.X }
      else g2
    (true, g3)
  else (false, g)

/-- Source `TicTacToe.get_available_moves`: indices of the empty cells, ascending. -/
def TicTacToe.get_available_moves (g : TicTacToe) : List Nat :=
  (List.range 9).filter (fun i => g.board.getD i Cell.empty = Cell.empty)

/-- Source `TicTacToe.is_game_over`. -/
def TicTacToe.is_game_over (g : TicTacToe) : Bool :=
  decide (g.game_state ≠ GameState.ONGOING)

/-- Source `TicTacToe.get_board_copy`: `self.board.copy()` — in the embedding a
list value, shared with no alias of the live object. -/
def TicTacToe.get_board_copy (g : TicTacToe) : List Cell :=
  g.board

/-! ## players.py -/

/-- Source `SmartAI.__init__`: `self.opponent_symbol = 'O' if symbol == 'X' else 'X'`. -/
def opponent_symbol (symbol : Cell) : Cell :=
  if symbol = Cell.X then Cell.O else Cell.X

/-- The `for pattern in TicTacToe.WIN_PATTERNS` loop of
`SmartAI._evaluate_board`. -/
def evalPatterns (symbol : Cell) (board : List Cell) : List (Nat × Nat × Nat) → Int
  | [] => 0
  | (a, b, c) :: rest =>
    if board.getD a Cell.empty = board.getD b Cell.empty ∧
       board.getD b Cell.empty = board.getD c Cell.empty ∧
       board.getD a Cell.empty ≠ Cell.empty then
      if board.getD a Cell.empty = symbol then 10 else -10
    else evalPatterns symbol board rest

/-- Source `SmartAI._evaluate_board`: `10` when the first completed pattern holds
the AI's own symbol, `-10` when it holds the opponent's, `0` otherwise. -/
def _evaluate_board (symbol : Cell) (board : List Cell) : Int :=
  evalPatterns symbol board WIN_PATTERNS

/-- The `for i in range(9)` loop of `SmartAI._minimax`; `mm` is the
recursive call at the remaining fuel.  The board is threaded through the
iterations exactly as the mutable Python list is: set the cell, recurse on
the board the recursion returns, clear the cell again. -/
def mmLoop (symbol : Cell) (mm : List Cell → Cell → Bool → ((Int × Option Nat) × List Cell))
    (player : Cell) (is_maximizing : Bool) :
    List Nat → ((Int × Option Nat) × List Cell) → ((Int × Option Nat) × List Cell)
  | [], acc => acc
  | i :: rest, ((best_score, best_move), board) =>
    if board.getD i Cell.empty = Cell.empty then
      let r := mm (board.set i player)
        (if player = symbol then opponent_symbol symbol else symbol) (!is_maximizing)
      let current_score := r.1.1
      let board2 := (r.2).set i Cell.empty
      if is_maximizing then
        if current_score > best_score then
          mmLoop symbol mm player is_maximizing rest ((current_score, some i), board2)
        else
          mmLoop symbol mm player is_maximizing rest ((best_score, best_move), board2)
      else
        if current_score < best_score then
          mmLoop symbol mm player is_maximizing rest ((current_score, some i), board2)
        else
          mmLoop symbol mm player is_maximizing rest ((best_score, best_move), board2)
    else
      mmLoop symbol mm player is_maximizing rest ((best_score, best_move), board)

/-- Source `SmartAI._minimax`.  Returns the `(score, best_move)` pair of the
source together with the board list as it stands when the call returns.
Fuel `9` (as supplied by `get_move`) always suffices: each recursive call
fills one empty cell. -/
def _minimax (symbol : Cell) : Nat → List Cell → Cell → Bool → ((Int × Option Nat) × List Cell)
  | 0, board, _player, _m => ((_evaluate_board symbol board, none), board)
  | fuel + 1, board, player, is_maximizing =>
    let score := _evaluate_board symbol board
    if score ≠ 0 ∨ ¬ board.contains Cell.empty then ((score, none), board)
    else
      mmLoop symbol (_minimax symbol fuel) player is_maximizing (List.range 9)
        (((if is_maximizing then (-1000 : Int) else 1000), none), board)

/-- Source `SmartAI.get_move` at difficulty `"hard"` (no random mixing): run
`_minimax` on a board copy and fall back to the first available move when
the search returns no move.  `none` models the `IndexError` the source
would raise on `get_available_moves()[0]` with no available move. -/
def SmartAI.get_move (symbol : Cell) (game : TicTacToe) : Option Nat :=
  match ((_minimax symbol 9 game.get_board_copy symbol true).1).2 with
  | some best_move => some best_move
  | none => game.get_available_moves.head?

/-- Source `RandomAI.get_move` draws from `random.choice(game.get_available_moves())`:
the set of values the call can return is exactly `get_available_moves`. -/
def RandomAI.possible_moves (game : TicTacToe) : List Nat :=
  game.get_available_moves

/-! ## utils.py -/

/-- Source `GameStats.__init__` / its four attributes; `wins` is the
`defaultdict(int)` keyed by the player symbol. -/
structure GameStats where
  games_played : Nat
  wins : Cell → Nat
  draws : Nat
  total_moves : Nat

/-- A fresh `GameStats()`. -/
def GameStats.init : GameStats :=
  { games_played := 0, wins := fun _ => 0, draws := 0, total_moves := 0 }

/-- Source `GameStats.record_game`. -/
def GameStats.record_game (s : GameStats) (game_state : GameState) (total_moves : Nat) :
    GameStats :=
  let s1 := { s with games_played := s.games_played + 1
                     total_moves := s.total_moves + total_moves }
  if game_state = GameState.X_WINS then
    { s1 with wins := fun k => if k = Cell.X then s1.wins Cell.X + 1 else s1.wins k }
  else if game_state = GameState.O_WINS then
    { s1 with wins := fun k => if k = Cell.O then s1.wins Cell.O + 1 else s1.wins k }
  else if game_state = GameState.DRAW then
    { s1 with draws := s1.draws + 1 }
  else s1

/-- Python `round(10 * x)` on the exact rational `x`: round half to even
(banker's rounding), written with integer floor division so that it
evaluates by kernel reduction.  `n` is `⌊10x⌋` and `r` the remainder, so
`10x - n` compares with `1/2` as `2r` compares with the denominator.  The
values `get_stats` feeds it in the verified scenarios are exact dyadic
rationals, so the float detour of the source loses nothing. -/
def pyRoundTenths (q : ℚ) : ℤ :=
  let n := (10 * q.num).fdiv q.den
  let r := 10 * q.num - n * q.den
  if 2 * r < (q.den : ℤ) then n
  else if (q.den : ℤ) < 2 * r then n + 1
  else if n % 2 = 0 then n else n + 1

/-- Python `round(x, 1)`: round the tenths half to even, scale back. -/
def pyRound1 (q : ℚ) : ℚ :=
  Rat.divInt (pyRoundTenths q) 10

/-- The dictionary returned by `GameStats.get_stats`. -/
structure StatsResult where
  games_played : Nat
  x_wins : Nat
  o_wins : Nat
  draws : Nat
  average_moves : ℚ
deriving DecidableEq

/-- Source `GameStats.get_stats`. -/
def GameStats.get_stats (s : GameStats) : StatsResult :=
  { games_played := s.games_played
    x_wins := s.wins Cell.X
    o_wins := s.wins Cell.O
    draws := s.draws
    average_moves := pyRound1 (Rat.divInt (s.total_moves : Int) ((max 1 s.games_played : Nat) : Int)) }

/-! ## interface.py / HumanPlayer -/

/-- One interaction with `input()` inside `HumanPlayer.get_move`:
the user types a number (`num n`, parsed by `int(...)`), types something
unparsable (`malformed`, raising `ValueError`), or interrupts
(`interrupt`, raising `KeyboardInterrupt`). -/
inductive InputEvent where
  | num (n : Int)
  | malformed
  | interrupt
deriving DecidableEq

/-- Source `HumanPlayer.get_move`: the `while True` loop over a stream of input
events.  `except (ValueError, KeyboardInterrupt)` catches both the
malformed-input and the interrupt event and re-prompts, so the loop only
leaves on a valid move; `none` models an exhausted input stream (the
source would block on `input()` forever). -/
def HumanPlayer.get_move (g : TicTacToe) : List InputEvent → Option Nat
  | [] => none
  | InputEvent.num n :: rest =>
    let position := n - 1
    if g.is_valid_move position then some position.toNat
    else HumanPlayer.get_move g rest
  | InputEvent.malformed :: rest => HumanPlayer.get_move g rest
  | InputEvent.interrupt :: rest => HumanPlayer.get_move g rest

/-! ## Verification harness -/

/-- Apply a sequence of positions through `make_move`, starting anywhere. -/
def applyMoves (g : TicTacToe) : List Int → TicTacToe
  | [] => g
  | m :: rest => applyMoves (g.make_move m).2 rest

/-- The intermediate object state inside `make_move` after
`self.board[position] = self.current_player` and `self.moves_count += 1`,
before `_update_game_state` runs. -/
def afterPlacement (g : TicTacToe) (position : Int) : TicTacToe :=
  { g with board := g.board.set position.toNat g.current_player
           moves_count := g.moves_count + 1 }

/-- One game in which `SmartAI` (symbol `X`, difficulty hard) plays the
`X` turns and the opponent's `O` turns are taken from `replies` in order.
The playout stops early (returning the state reached) if the opponent's
next reply is illegal, if the replies are exhausted, or if `get_move`
returns nothing; `fuel` bounds the number of turns. -/
def playout : Nat → TicTacToe → List Int → TicTacToe
  | 0, g, _ => g
  | fuel + 1, g, replies =>
    if g.game_state ≠ GameState.ONGOING then g
    else if g.current_player = Cell.X then
      match SmartAI.get_move Cell.X g with
      | some m => playout fuel (g.make_move (m : Int)).2 replies
      | none => g
    else
      match replies with
      | [] => g
      | r :: rest =>
        if g.is_valid_move r then playout fuel (g.make_move r).2 rest else g

/-- Score of the position reached from `b` by placing `player` at `i`, as
`_minimax` computes it for the child: the opponent moves next with the
maximizing role given by `maxi`, explored with `fuel` fuel. -/
def childValue (symbol player : Cell) (maxi : Bool) (fuel : Nat) (b : List Cell) (i : Nat) : Int :=
  ((_minimax symbol fuel (b.set i player)
    (if player = symbol then opponent_symbol symbol else symbol) maxi).1).1

/-- First pattern (in `WIN_PATTERNS` order) holding two cells of `mark`
and one empty cell: that empty cell completes (or blocks) the line. -/
def patMove (mark : Cell) (b : List Cell) : List (Nat × Nat × Nat) → Option Nat
  | [] => none
  | (x, y, z) :: rest =>
    if b.getD x Cell.empty = mark ∧ b.getD y Cell.empty = mark ∧
        b.getD z Cell.empty = Cell.empty then some z
    else if b.getD x Cell.empty = mark ∧ b.getD z Cell.empty = mark ∧
        b.getD y Cell.empty = Cell.empty then some y
    else if b.getD y Cell.empty = mark ∧ b.getD z Cell.empty = mark ∧
        b.getD x Cell.empty = Cell.empty then some x
    else patMove mark b rest

/-- A concrete scripted strategy for `X`, used only as a certificate in
the analysis of the game value: complete an own line if possible, else
block an opponent line, else take the centre, else the first free corner,
else the first free edge. -/
def certStrat (b : List Cell) : Nat :=
  match patMove Cell.X b WIN_PATTERNS with
  | some i => i
  | none =>
    match patMove Cell.O b WIN_PATTERNS with
    | some i => i
    | none =>
      if b.getD 4 Cell.empty = Cell.empty then 4
      else
        match [0, 2, 6, 8, 1, 3, 5, 7].find? (fun i => decide (b.getD i Cell.empty = Cell.empty)) with
        | some i => i
        | none => 0

/-- Exhaustive check that strategy `σ` for `X` (to move iff `maxi`) never
reaches a position whose static evaluation is negative, against every
opponent reply.  Terminal positions are those `_minimax` treats as
terminal. -/
def certCheck (σ : List Cell → Nat) : Nat → List Cell → Bool → Bool
  | 0, b, _ => decide (0 ≤ _evaluate_board Cell.X b)
  | fuel + 1, b, maxi =>
    if _evaluate_board Cell.X b ≠ 0 ∨ ¬ b.contains Cell.empty then
      decide (0 ≤ _evaluate_board Cell.X b)
    else if maxi then
      decide (σ b < 9) && decide (b.getD (σ b) Cell.empty = Cell.empty) &&
        certCheck σ fuel (b.set (σ b) Cell.X) false
    else
      (List.range 9).all fun i =>
        if b.getD i Cell.empty = Cell.empty then certCheck σ fuel (b.set i Cell.O) true
        else true

/-- Invariant maintained along every playout in which `SmartAI` plays the
`X` turns: well-formed board and counters, a mark on turn, never an `O`
win, and — while the game is running — a non-losing minimax value for `X`
computed at fuel equal to the number of empty cells. -/
def INV (g : TicTacToe) : Prop :=
  g.board.length = 9 ∧
  g.moves_count + g.board.count Cell.empty = 9 ∧
  (g.current_player = Cell.X ∨ g.current_player = Cell.O) ∧
  g.game_state ≠ GameState.O_WINS ∧
  (g.game_state = GameState.ONGOING →
    _evaluate_board Cell.X g.board = 0 ∧
    g.board.contains Cell.empty = true ∧
    0 ≤ ((_minimax Cell.X (g.board.count Cell.empty) g.board g.current_player
      (decide (g.current_player = Cell.X))).1).1)

/-! ## Basic lemmas about the engine -/

/-- Unfolding of `is_valid_move` into its defining proposition. -/
theorem is_valid_move_iff (g : TicTacToe) (position : Int) :
    g.is_valid_move position = true ↔
      (0 ≤ position ∧ position ≤ 8 ∧
        g.board.getD position.toNat Cell.empty = Cell.empty ∧
        g.game_state = GameState.ONGOING) := by
  simp [TicTacToe.is_valid_move]

/-- Source `_update_game_state` only writes `game_state`, `winner` and
`winning_pattern`. -/
theorem update_preserves (g : TicTacToe) :
    g._update_game_state.board = g.board ∧
    g._update_game_state.current_player = g.current_player ∧
    g._update_game_state.moves_count = g.moves_count := by
  unfold TicTacToe._update_game_state
  rcases hscan : updateScan g.board WIN_PATTERNS with _ | ⟨w, p⟩
  · simp only []
    split
    · simp
    · simp
  · simp

/-- Field-by-field description of `make_move` on illegal and legal moves. -/
theorem make_move_fields (g : TicTacToe) (position : Int) :
    (¬ (0 ≤ position ∧ position ≤ 8 ∧
        g.board.getD position.toNat Cell.empty = Cell.empty ∧
        g.game_state = GameState.ONGOING) →
      g.make_move position = (false, g)) ∧
    ((0 ≤ position ∧ position ≤ 8 ∧
        g.board.getD position.toNat Cell.empty = Cell.empty ∧
        g.game_state = GameState.ONGOING) →
      (g.make_move position).1 = true ∧
      ((g.make_move position).2).board = g.board.set position.toNat g.current_player ∧
      ((g.make_move position).2).moves_count = g.moves_count + 1 ∧
      ((g.make_move position).2).game_state = (afterPlacement g position)._update_game_state.game_state ∧
      ((g.make_move position).2).current_player =
        (if (afterPlacement g position)._update_game_state.game_state = GameState.ONGOING then
          (if g.current_player = Cell.X then Cell.O else Cell.X)
         else g.current_player) ∧
      ((g.make_move position).2).winner = (afterPlacement g position)._update_game_state.winner ∧
      ((g.make_move position).2).winning_pattern =
        (afterPlacement g position)._update_game_state.winning_pattern) := by
  constructor
  · intro h
    have hv : g.is_valid_move position = false := by
      unfold TicTacToe.is_valid_move
      rw [decide_eq_false_iff_not]
      exact h
    simp [TicTacToe.make_move, hv]
  · intro h
    have hv : g.is_valid_move position = true := (is_valid_move_iff g position).mpr h
    obtain ⟨hb, hc, hm⟩ := update_preserves (afterPlacement g position)
    unfold TicTacToe.make_move
    rw [if_pos hv]
    dsimp only
    unfold afterPlacement at hb hc hm ⊢
    refine ⟨rfl, ?_, ?_, ?_, ?_, ?_, ?_⟩
    · split
      · exact hb
      · exact hb
    · split
      · exact hm
      · exact hm
    · split
      · rfl
      · rfl
    · split
      · dsimp only
        rw [hc]
      · exact hc
    · split
      · rfl
      · rfl
    · split
      · rfl
      · rfl

/-- Setting an already-empty cell to empty leaves the board unchanged. -/
theorem set_empty_id : ∀ (b : List Cell) (i : Nat),
    b.getD i Cell.empty = Cell.empty → b.set i Cell.empty = b := by
  intro b
  induction b with
  | nil => intro i _; rfl
  | cons x xs ih =>
    intro i h
    cases i with
    | zero =>
      have hx : x = Cell.empty := by simpa [List.getD] using h
      simp [List.set, hx]
    | succ n =>
      have h' : xs.getD n Cell.empty = Cell.empty := by simpa [List.getD] using h
      simp [List.set, ih n h']

/-- Filling an empty cell with a mark removes exactly one empty cell. -/
theorem count_empty_set : ∀ (b : List Cell) (i : Nat) (c : Cell), i < b.length →
    b.getD i Cell.empty = Cell.empty → c ≠ Cell.empty →
    (b.set i c).count Cell.empty + 1 = b.count Cell.empty := by
  intro b
  induction b with
  | nil => intro i c hi _ _; exact absurd hi (by simp)
  | cons x xs ih =>
    intro i c hi he hc
    cases i with
    | zero =>
      have hx : x = Cell.empty := by simpa [List.getD] using he
      simp [List.set, List.count_cons, hx, hc]
    | succ n =>
      have hn : n < xs.length := by simpa using hi
      have he' : xs.getD n Cell.empty = Cell.empty := by simpa [List.getD] using he
      have hrec := ih n c hn he' hc
      simp only [List.set, List.count_cons]
      cases hxe : (x == Cell.empty) <;> simp [hxe] <;> omega

/-- Source `contains` of the empty cell in terms of membership. -/
theorem contains_empty_iff (b : List Cell) :
    b.contains Cell.empty = true ↔ Cell.empty ∈ b := by
  induction b with
  | nil => simp
  | cons x xs ih => simp [List.contains_cons, ih]

/-- C1: `make_move` refuses an illegal move (position outside `0..8`,
occupied cell, or game over) with `False` and no state change; a legal
move places the active mark, increments the move count, recomputes the
outcome through `_update_game_state`, flips the active mark exactly when
the recomputed outcome is still ongoing, and returns `True`. -/
theorem make_move_correct (g : TicTacToe) (position : Int) :
    (¬ (0 ≤ position ∧ position ≤ 8 ∧
        g.board.getD position.toNat Cell.empty = Cell.empty ∧
        g.game_state = GameState.ONGOING) →
      g.make_move position = (false, g)) ∧
    ((0 ≤ position ∧ position ≤ 8 ∧
        g.board.getD position.toNat Cell.empty = Cell.empty ∧
        g.game_state = GameState.ONGOING) →
      (g.make_move position).1 = true ∧
      ((g.make_move position).2).board = g.board.set position.toNat g.current_player ∧
      ((g.make_move position).2).moves_count = g.moves_count + 1 ∧
      ((g.make_move position).2).game_state = (afterPlacement g position)._update_game_state.game_state ∧
      ((g.make_move position).2).current_player =
        (if (afterPlacement g position)._update_game_state.game_state = GameState.ONGOING then
          (if g.current_player = Cell.X then Cell.O else Cell.X)
         else g.current_player)) := by
  obtain ⟨h1, h2⟩ := make_move_fields g position
  refine ⟨h1, fun h => ?_⟩
  obtain ⟨a, b, c, d, e, -, -⟩ := h2 h
  exact ⟨a, b, c, d, e⟩

/-- Witness for the legal branch of `make_move_correct` at the fresh game
and position 4. -/
theorem make_move_correct_witness :
    (TicTacToe.init.make_move 4).1 = true ∧
    ((TicTacToe.init.make_move 4).2).board =
      TicTacToe.init.board.set (4 : Int).toNat TicTacToe.init.current_player ∧
    ((TicTacToe.init.make_move 4).2).moves_count = TicTacToe.init.moves_count + 1 ∧
    ((TicTacToe.init.make_move 4).2).game_state =
      (afterPlacement TicTacToe.init 4)._update_game_state.game_state ∧
    ((TicTacToe.init.make_move 4).2).current_player =
      (if (afterPlacement TicTacToe.init 4)._update_game_state.game_state = GameState.ONGOING then
        (if TicTacToe.init.current_player = Cell.X then Cell.O else Cell.X)
       else TicTacToe.init.current_player) :=
  (make_move_correct TicTacToe.init 4).2 (by decide)


/-- Source `make_move` preserves board length, the count bookkeeping and a
non-empty active mark. -/
theorem make_move_inv (g : TicTacToe) (m : Int)
    (hl : g.board.length = 9)
    (hcnt : g.moves_count + g.board.count Cell.empty = 9)
    (hcur : g.current_player ≠ Cell.empty) :
    ((g.make_move m).2).board.length = 9 ∧
    ((g.make_move m).2).moves_count + ((g.make_move m).2).board.count Cell.empty = 9 ∧
    ((g.make_move m).2).current_player ≠ Cell.empty := by
  by_cases hv : (0 ≤ m ∧ m ≤ 8 ∧
      g.board.getD m.toNat Cell.empty = Cell.empty ∧
      g.game_state = GameState.ONGOING)
  · obtain ⟨h0, h8, he, ho⟩ := hv
    have hi : m.toNat < g.board.length := by rw [hl]; omega
    obtain ⟨-, hb, hm, hs, hc, -, -⟩ := (make_move_fields g m).2 ⟨h0, h8, he, ho⟩
    refine ⟨?_, ?_, ?_⟩
    · rw [hb, List.length_set, hl]
    · have hset := count_empty_set g.board m.toNat g.current_player hi he hcur
      rw [hm, hb]
      omega
    · rw [hc]
      split
      · split <;> simp
      · exact hcur
  · have heq := (make_move_fields g m).1 hv
    rw [heq]
    exact ⟨hl, hcnt, hcur⟩

/-- The bookkeeping invariant holds along any `make_move` sequence. -/
theorem applyMoves_inv (moves : List Int) : ∀ (g : TicTacToe),
    g.board.length = 9 →
    g.moves_count + g.board.count Cell.empty = 9 →
    g.current_player ≠ Cell.empty →
    (applyMoves g moves).board.length = 9 ∧
    (applyMoves g moves).moves_count + (applyMoves g moves).board.count Cell.empty = 9 ∧
    (applyMoves g moves).current_player ≠ Cell.empty := by
  induction moves with
  | nil => intro g hl hcnt hcur; exact ⟨hl, hcnt, hcur⟩
  | cons m rest ih =>
    intro g hl hcnt hcur
    obtain ⟨hl1, hcnt1, hcur1⟩ := make_move_inv g m hl hcnt hcur
    exact ih (g.make_move m).2 hl1 hcnt1 hcur1

/-- Counting empties and counting non-empties are complementary. -/
theorem count_empty_countP : ∀ (b : List Cell),
    b.count Cell.empty + b.countP (fun c => decide (c ≠ Cell.empty)) = b.length := by
  intro b
  induction b with
  | nil => rfl
  | cons x xs ih =>
    rw [List.count_cons, List.countP_cons]
    rcases x with _ | _ | _ <;> simp at ih ⊢ <;> omega

/-- C4: every state reachable from the fresh game (equally, from `reset`)
by `make_move` calls has a move count equal to nine minus the number of
empty cells, which is the number of non-empty cells. -/
theorem reachable_count_invariant (moves : List Int) :
    (applyMoves TicTacToe.init moves).moves_count
        = 9 - (applyMoves TicTacToe.init moves).board.count Cell.empty ∧
    (applyMoves TicTacToe.init moves).moves_count
        = (applyMoves TicTacToe.init moves).board.countP (fun c => decide (c ≠ Cell.empty)) ∧
    ∀ g : TicTacToe, g.reset = TicTacToe.init := by
  obtain ⟨hl, hcnt, -⟩ := applyMoves_inv moves TicTacToe.init (by decide) (by decide) (by decide)
  have hP := count_empty_countP (applyMoves TicTacToe.init moves).board
  rw [hl] at hP
  exact ⟨by omega, by omega, fun g => rfl⟩

/-- C2: after an accepted move the outcome is given by the first completed
pattern in the fixed rows/columns/diagonals order (win for the mark of
that pattern, with the pattern recorded as the winning line), a draw
exactly when the move count is nine, and ongoing otherwise; in particular
the move sequence 0, 4, 1, 7, 2 from a fresh game gives an `X` win on
line (0, 1, 2). -/
theorem outcome_recomputation (g : TicTacToe) (position : Int)
    (hv : g.is_valid_move position = true) :
    (∀ w p, updateScan ((g.make_move position).2).board WIN_PATTERNS = some (w, p) →
      ((g.make_move position).2).game_state =
          (if w = Cell.X then GameState.X_WINS else GameState.O_WINS) ∧
      ((g.make_move position).2).winner = some w ∧
      ((g.make_move position).2).winning_pattern = some p) ∧
    (updateScan ((g.make_move position).2).board WIN_PATTERNS = none →
      ((g.make_move position).2).game_state =
        (if ((g.make_move position).2).moves_count = 9 then GameState.DRAW
         else GameState.ONGOING)) ∧
    (applyMoves TicTacToe.init [0, 4, 1, 7, 2]).game_state = GameState.X_WINS ∧
    (applyMoves TicTacToe.init [0, 4, 1, 7, 2]).winning_pattern = some (0, 1, 2) ∧
    (applyMoves TicTacToe.init [0, 4, 1, 7, 2]).winner = some Cell.X := by
  obtain ⟨h0, h8, he, ho⟩ := (is_valid_move_iff g position).mp hv
  obtain ⟨-, hb, hm, hs, -, hw, hp⟩ := (make_move_fields g position).2 ⟨h0, h8, he, ho⟩
  have hAb : (afterPlacement g position).board = g.board.set position.toNat g.current_player := rfl
  refine ⟨?_, ?_, by decide, by decide, by decide⟩
  · intro w p hscan
    rw [hb, ← hAb] at hscan
    have hrec : (afterPlacement g position)._update_game_state =
        { afterPlacement g position with
            winner := some w
            winning_pattern := some p
            game_state := if w = Cell.X then GameState.X_WINS else GameState.O_WINS } := by
      unfold TicTacToe._update_game_state
      rw [hscan]
    rw [hs, hw, hp, hrec]
    exact ⟨rfl, rfl, rfl⟩
  · intro hscan
    rw [hb, ← hAb] at hscan
    have hrec : (afterPlacement g position)._update_game_state =
        (if (afterPlacement g position).moves_count = 9
         then { afterPlacement g position with game_state := GameState.DRAW }
         else afterPlacement g position) := by
      unfold TicTacToe._update_game_state
      rw [hscan]
    have hAm : (afterPlacement g position).moves_count = g.moves_count + 1 := rfl
    rw [hs, hm, hrec, hAm]
    split
    · rfl
    · exact ho

/-- Witness for `outcome_recomputation`: the winning fifth move of
scenario A played on the four-move prefix. -/
theorem outcome_recomputation_witness :
    ((applyMoves TicTacToe.init [0, 4, 1, 7]).make_move 2).2.game_state =
        (if Cell.X = Cell.X then GameState.X_WINS else GameState.O_WINS) ∧
    ((applyMoves TicTacToe.init [0, 4, 1, 7]).make_move 2).2.winner = some Cell.X ∧
    ((applyMoves TicTacToe.init [0, 4, 1, 7]).make_move 2).2.winning_pattern = some (0, 1, 2) :=
  (outcome_recomputation (applyMoves TicTacToe.init [0, 4, 1, 7]) 2 (by decide)).1
    Cell.X (0, 1, 2) (by decide)

/-- The `_minimax` loop hands back the board it received, provided each
recursive call does. -/
theorem mmLoop_restores (symbol player : Cell) (maxi : Bool)
    (mm : List Cell → Cell → Bool → ((Int × Option Nat) × List Cell))
    (hmm : ∀ b p m, (mm b p m).2 = b) :
    ∀ (L : List Nat) (acc : (Int × Option Nat) × List Cell),
      (mmLoop symbol mm player maxi L acc).2 = acc.2 := by
  intro L
  induction L with
  | nil => intro acc; rfl
  | cons i rest ih =>
    intro acc
    obtain ⟨⟨bs, bm⟩, b⟩ := acc
    show (mmLoop symbol mm player maxi (i :: rest) ((bs, bm), b)).2 = b
    unfold mmLoop
    split
    · rename_i hemp
      dsimp only
      have hb2 : ∀ q m', ((mm (b.set i player) q m').2).set i Cell.empty = b := by
        intro q m'
        rw [hmm, List.set_set]
        exact set_empty_id b i hemp
      rw [hb2]
      repeat' split
      all_goals exact ih _
    · exact ih ((bs, bm), b)

/-- Source `_minimax` always returns the board exactly as it received it: every
tentative placement made during the search is undone. -/
theorem _minimax_restores (symbol : Cell) : ∀ (fuel : Nat) (b : List Cell) (p : Cell) (m : Bool),
    (_minimax symbol fuel b p m).2 = b := by
  intro fuel
  induction fuel with
  | zero => intro b p m; rfl
  | succ n ih =>
    intro b p m
    unfold _minimax
    dsimp only
    split
    · rfl
    · exact mmLoop_restores symbol p m (_minimax symbol n)
        (fun b1 p1 m1 => ih b1 p1 m1) (List.range 9) _

/-- C7: the search never mutates the live game: it runs on the value
returned by `get_board_copy` (the board snapshot), and `_minimax` returns
the board it was handed unchanged — each tentative placement is undone. -/
theorem search_restores_board :
    (∀ (symbol : Cell) (fuel : Nat) (board : List Cell) (player : Cell) (is_maximizing : Bool),
      (_minimax symbol fuel board player is_maximizing).2 = board) ∧
    ∀ g : TicTacToe, g.get_board_copy = g.board :=
  ⟨fun s f b p m => _minimax_restores s f b p m, fun g => rfl⟩

/-- C9 (divergence witness): `HumanPlayer.get_move` catches
`KeyboardInterrupt` in its own retry loop and re-prompts, so an interrupt
raised while the move is being collected never reaches the
`KeyboardInterrupt` handler of `ConsoleInterface.play_game` and the
session does not terminate: on the interrupt event the loop simply
continues with the next input. -/
theorem interrupt_swallowed :
    HumanPlayer.get_move TicTacToe.init [InputEvent.interrupt, InputEvent.num 5] = some 4 ∧
    ∀ (g : TicTacToe) (rest : List InputEvent),
      HumanPlayer.get_move g (InputEvent.interrupt :: rest) = HumanPlayer.get_move g rest :=
  ⟨by decide, fun _g _rest => rfl⟩

/-- C10: with zero recorded games the divisor of the average is clamped
to one (`max 1`), so `get_stats` divides by a positive number and returns
all-zero aggregates with average 0. -/
theorem get_stats_zero_games :
    GameStats.init.get_stats.games_played = 0 ∧
    GameStats.init.get_stats.x_wins = 0 ∧
    GameStats.init.get_stats.o_wins = 0 ∧
    GameStats.init.get_stats.draws = 0 ∧
    GameStats.init.get_stats.average_moves = 0 ∧
    ∀ s : GameStats, 1 ≤ max 1 s.games_played := by
  refine ⟨rfl, rfl, rfl, rfl, ?_, fun s => le_max_left 1 s.games_played⟩
  have h1 : GameStats.init.get_stats.average_moves = Rat.divInt 0 1 := by decide
  rw [h1, Rat.divInt_eq_div]
  norm_num

/-- C8: recording X wins in 5 and 6 moves, an O win in 7 and a draw in 9
yields 4 games, 2 X wins, 1 O win, 1 draw, and an average of 27/4 = 6.75
rounded to one decimal place (half to even, as Python rounds), namely
6.8 = 34/5. -/
theorem stats_after_four_games :
    ((((GameStats.init.record_game GameState.X_WINS 5).record_game GameState.O_WINS 7).record_game
        GameState.DRAW 9).record_game GameState.X_WINS 6).get_stats.games_played = 4 ∧
    ((((GameStats.init.record_game GameState.X_WINS 5).record_game GameState.O_WINS 7).record_game
        GameState.DRAW 9).record_game GameState.X_WINS 6).get_stats.x_wins = 2 ∧
    ((((GameStats.init.record_game GameState.X_WINS 5).record_game GameState.O_WINS 7).record_game
        GameState.DRAW 9).record_game GameState.X_WINS 6).get_stats.o_wins = 1 ∧
    ((((GameStats.init.record_game GameState.X_WINS 5).record_game GameState.O_WINS 7).record_game
        GameState.DRAW 9).record_game GameState.X_WINS 6).get_stats.draws = 1 ∧
    ((((GameStats.init.record_game GameState.X_WINS 5).record_game GameState.O_WINS 7).record_game
        GameState.DRAW 9).record_game GameState.X_WINS 6).get_stats.average_moves
      = pyRound1 (27 / 4) ∧
    pyRound1 (27 / 4) = 34 / 5 := by
  have hq : (27 / 4 : ℚ) = Rat.divInt 27 4 := by
    rw [Rat.divInt_eq_div]
    norm_num
  have hr : pyRound1 (Rat.divInt 27 4) = Rat.divInt 34 5 := by decide
  have hv : Rat.divInt 34 5 = (34 / 5 : ℚ) := by
    rw [Rat.divInt_eq_div]
    norm_num
  refine ⟨by decide, by decide, by decide, by decide, ?_, ?_⟩
  · rw [hq]
    decide
  · rw [hq, hr, hv]

/-- Unfolding of one loop iteration of `_minimax` on an empty cell. -/
theorem mmLoop_cons_eq (symbol player : Cell) (maxi : Bool)
    (mm : List Cell → Cell → Bool → ((Int × Option Nat) × List Cell))
    (i : Nat) (rest : List Nat) (bs : Int) (bm : Option Nat) (b : List Cell)
    (hemp : b.getD i Cell.empty = Cell.empty) :
    mmLoop symbol mm player maxi (i :: rest) ((bs, bm), b) =
      (let r := mm (b.set i player)
        (if player = symbol then opponent_symbol symbol else symbol) (!maxi)
       let board2 := (r.2).set i Cell.empty
       if maxi then
         (if r.1.1 > bs then mmLoop symbol mm player maxi rest ((r.1.1, some i), board2)
          else mmLoop symbol mm player maxi rest ((bs, bm), board2))
       else
         (if r.1.1 < bs then mmLoop symbol mm player maxi rest ((r.1.1, some i), board2)
          else mmLoop symbol mm player maxi rest ((bs, bm), board2))) := by
  simp only [mmLoop]
  rw [if_pos hemp]

/-- Unfolding of one loop iteration of `_minimax` on a non-empty cell. -/
theorem mmLoop_cons_skip (symbol player : Cell) (maxi : Bool)
    (mm : List Cell → Cell → Bool → ((Int × Option Nat) × List Cell))
    (i : Nat) (rest : List Nat) (bs : Int) (bm : Option Nat) (b : List Cell)
    (hemp : ¬ b.getD i Cell.empty = Cell.empty) :
    mmLoop symbol mm player maxi (i :: rest) ((bs, bm), b) =
      mmLoop symbol mm player maxi rest ((bs, bm), b) := by
  simp only [mmLoop]
  rw [if_neg hemp]

/-- Any move the `_minimax` loop reports comes either from its initial
accumulator or from an empty cell among the scanned indices. -/
theorem mmLoop_move_mem (symbol player : Cell) (maxi : Bool)
    (mm : List Cell → Cell → Bool → ((Int × Option Nat) × List Cell))
    (hmm : ∀ b p m, (mm b p m).2 = b) :
    ∀ (L : List Nat) (bs : Int) (bm : Option Nat) (b : List Cell) (m : Nat),
      ((mmLoop symbol mm player maxi L ((bs, bm), b)).1).2 = some m →
      bm = some m ∨ (m ∈ L ∧ b.getD m Cell.empty = Cell.empty) := by
  intro L
  induction L with
  | nil => intro bs bm b m h; exact Or.inl h
  | cons i rest ih =>
    intro bs bm b m h
    by_cases hemp : b.getD i Cell.empty = Cell.empty
    · rw [mmLoop_cons_eq symbol player maxi mm i rest bs bm b hemp] at h
      dsimp only at h
      have hb2 : ((mm (b.set i player)
          (if player = symbol then opponent_symbol symbol else symbol) (!maxi)).2).set
            i Cell.empty = b := by
        rw [hmm, List.set_set]
        exact set_empty_id b i hemp
      rw [hb2] at h
      cases maxi
      all_goals
        split at h
      all_goals
        split at h
      all_goals
        split at h
      all_goals
        first
        | (rcases ih _ _ _ _ h with h1 | ⟨h2, h3⟩
           · injection h1 with hi
             subst hi
             exact Or.inr ⟨List.mem_cons_self i rest, hemp⟩
           · exact Or.inr ⟨List.mem_cons_of_mem i h2, h3⟩)
        | (rcases ih _ _ _ _ h with h1 | ⟨h2, h3⟩
           · exact Or.inl h1
           · exact Or.inr ⟨List.mem_cons_of_mem i h2, h3⟩)
    · rw [mmLoop_cons_skip symbol player maxi mm i rest bs bm b hemp] at h
      rcases ih _ _ _ _ h with h1 | ⟨h2, h3⟩
      · exact Or.inl h1
      · exact Or.inr ⟨List.mem_cons_of_mem i h2, h3⟩

/-- Any move `_minimax` reports is an empty cell with index below 9. -/
theorem minimax_move_mem (symbol : Cell) (fuel : Nat) (b : List Cell) (p : Cell)
    (maxi : Bool) (m : Nat)
    (h : ((_minimax symbol fuel b p maxi).1).2 = some m) :
    m < 9 ∧ b.getD m Cell.empty = Cell.empty := by
  cases fuel with
  | zero => exact absurd h (by simp [_minimax])
  | succ n =>
    unfold _minimax at h
    dsimp only at h
    split at h
    · exact absurd h (by simp)
    · rcases mmLoop_move_mem symbol p maxi (_minimax symbol n)
        (fun b1 p1 m1 => _minimax_restores symbol n b1 p1 m1) (List.range 9) _ _ _ _ h with
        h1 | ⟨h2, h3⟩
      · exact absurd h1 (by simp)
      · exact ⟨List.mem_range.mp h2, h3⟩

/-- Every available move is legal while the game is ongoing. -/
theorem available_valid (g : TicTacToe) (ho : g.game_state = GameState.ONGOING) :
    ∀ m ∈ g.get_available_moves, g.is_valid_move (m : Int) = true := by
  intro m hm
  unfold TicTacToe.get_available_moves at hm
  rw [List.mem_filter] at hm
  obtain ⟨hr, hp⟩ := hm
  have hm9 : m < 9 := List.mem_range.mp hr
  have hemp : g.board.getD m Cell.empty = Cell.empty := of_decide_eq_true hp
  rw [is_valid_move_iff]
  refine ⟨by omega, by omega, ?_, ho⟩
  rwa [Int.toNat_natCast]

/-- C6: on an ongoing game, every index `RandomAI.get_move` can return
(any element of `get_available_moves`) and every index `SmartAI.get_move`
returns is in `0..8`, lands on an empty cell, and satisfies
`is_valid_move`. -/
theorem ai_moves_legal (g : TicTacToe) (ho : g.game_state = GameState.ONGOING) :
    (∀ m ∈ RandomAI.possible_moves g, g.is_valid_move (m : Int) = true) ∧
    (∀ (symbol : Cell) (m : Nat), SmartAI.get_move symbol g = some m →
      m < 9 ∧ g.board.getD m Cell.empty = Cell.empty ∧ g.is_valid_move (m : Int) = true) := by
  constructor
  · exact fun m hm => available_valid g ho m hm
  · intro symbol m hsm
    unfold SmartAI.get_move at hsm
    split at hsm
    · rename_i bm heq
      injection hsm with hbm
      obtain rfl : bm = m := hbm
      obtain ⟨h9, hemp⟩ := minimax_move_mem symbol 9 g.get_board_copy symbol true bm heq
      refine ⟨h9, hemp, ?_⟩
      rw [is_valid_move_iff]
      refine ⟨by omega, by omega, ?_, ho⟩
      rwa [Int.toNat_natCast]
    · have hmem : m ∈ g.get_available_moves := by
        cases hav : g.get_available_moves with
        | nil => rw [hav] at hsm; exact absurd hsm (by simp)
        | cons a rest =>
          rw [hav] at hsm
          simp only [List.head?_cons, Option.some.injEq] at hsm
          rw [← hsm]
          exact List.mem_cons_self a rest
      have hv := available_valid g ho m hmem
      unfold TicTacToe.get_available_moves at hmem
      rw [List.mem_filter] at hmem
      exact ⟨List.mem_range.mp hmem.1, of_decide_eq_true hmem.2, hv⟩

/-- Witness for `ai_moves_legal`: index 0 drawn by the random player on a
fresh game is legal. -/
theorem ai_moves_legal_witness : TicTacToe.init.is_valid_move ((0 : Nat) : Int) = true :=
  (ai_moves_legal TicTacToe.init (by decide)).1 0 (by decide)

/-- Full characterisation of the maximizing scan of `_minimax`: starting
from accumulator `(bs, bm)`, over a strictly sorted index list the loop
either keeps the accumulator (and no empty scanned cell beats `bs`), or
returns the first empty cell attaining the maximum child score, which
strictly beats `bs` — the `current_score > best_score` test keeps the
first strictly better score, so ties never displace the chosen move. -/
theorem mmLoopMax_spec (symbol player : Cell) (fuel : Nat) (b : List Cell) :
    ∀ L : List Nat, L.Sorted (· < ·) →
    ∀ (bs : Int) (bm : Option Nat),
      ((mmLoop symbol (_minimax symbol fuel) player true L ((bs, bm), b)).1 = (bs, bm) ∧
        ∀ i ∈ L, b.getD i Cell.empty = Cell.empty →
          childValue symbol player false fuel b i ≤ bs) ∨
      (∃ m, m ∈ L ∧ b.getD m Cell.empty = Cell.empty ∧
        (mmLoop symbol (_minimax symbol fuel) player true L ((bs, bm), b)).1 =
          (childValue symbol player false fuel b m, some m) ∧
        bs < childValue symbol player false fuel b m ∧
        (∀ i ∈ L, b.getD i Cell.empty = Cell.empty →
          childValue symbol player false fuel b i ≤ childValue symbol player false fuel b m) ∧
        (∀ j ∈ L, j < m → b.getD j Cell.empty = Cell.empty →
          childValue symbol player false fuel b j < childValue symbol player false fuel b m)) := by
  intro L
  induction L with
  | nil =>
    intro _ bs bm
    exact Or.inl ⟨rfl, by simp⟩
  | cons i rest ih =>
    intro hsort bs bm
    rw [List.sorted_cons] at hsort
    obtain ⟨hlt, hsort'⟩ := hsort
    by_cases hemp : b.getD i Cell.empty = Cell.empty
    · rw [mmLoop_cons_eq symbol player true (_minimax symbol fuel) i rest bs bm b hemp]
      dsimp only
      have hb2 : ((_minimax symbol fuel (b.set i player)
          (if player = symbol then opponent_symbol symbol else symbol) (!true)).2).set
            i Cell.empty = b := by
        rw [_minimax_restores, List.set_set]
        exact set_empty_id b i hemp
      rw [hb2, if_pos rfl]
      simp only [Bool.not_true]
      rw [show ((_minimax symbol fuel (b.set i player)
          (if player = symbol then opponent_symbol symbol else symbol) false).1).1
        = childValue symbol player false fuel b i from rfl]
      by_cases hgt : childValue symbol player false fuel b i > bs
      · rw [if_pos hgt]
        rcases ih hsort' (childValue symbol player false fuel b i) (some i) with
          ⟨hres, hall⟩ | ⟨m, hmL, hmemp, hres, hlt2, hmax, hfirst⟩
        · refine Or.inr ⟨i, List.mem_cons_self i rest, hemp, hres, hgt, ?_, ?_⟩
          · intro j hj hje
            rcases List.mem_cons.mp hj with rfl | hj2
            · exact le_refl _
            · exact hall j hj2 hje
          · intro j hj hjlt hje
            rcases List.mem_cons.mp hj with rfl | hj2
            · exact absurd hjlt (lt_irrefl j)
            · exact absurd hjlt (by have := hlt j hj2; omega)
        · refine Or.inr ⟨m, List.mem_cons_of_mem i hmL, hmemp, hres, lt_trans hgt hlt2, ?_, ?_⟩
          · intro j hj hje
            rcases List.mem_cons.mp hj with rfl | hj2
            · exact le_of_lt hlt2
            · exact hmax j hj2 hje
          · intro j hj hjlt hje
            rcases List.mem_cons.mp hj with rfl | hj2
            · exact hlt2
            · exact hfirst j hj2 hjlt hje
      · rw [if_neg hgt]
        have hle : childValue symbol player false fuel b i ≤ bs := not_lt.mp hgt
        rcases ih hsort' bs bm with
          ⟨hres, hall⟩ | ⟨m, hmL, hmemp, hres, hlt2, hmax, hfirst⟩
        · refine Or.inl ⟨hres, ?_⟩
          intro j hj hje
          rcases List.mem_cons.mp hj with rfl | hj2
          · exact hle
          · exact hall j hj2 hje
        · refine Or.inr ⟨m, List.mem_cons_of_mem i hmL, hmemp, hres, hlt2, ?_, ?_⟩
          · intro j hj hje
            rcases List.mem_cons.mp hj with rfl | hj2
            · exact le_of_lt (lt_of_le_of_lt hle hlt2)
            · exact hmax j hj2 hje
          · intro j hj hjlt hje
            rcases List.mem_cons.mp hj with rfl | hj2
            · exact lt_of_le_of_lt hle hlt2
            · exact hfirst j hj2 hjlt hje
    · rw [mmLoop_cons_skip symbol player true (_minimax symbol fuel) i rest bs bm b hemp]
      rcases ih hsort' bs bm with
        ⟨hres, hall⟩ | ⟨m, hmL, hmemp, hres, hlt2, hmax, hfirst⟩
      · refine Or.inl ⟨hres, ?_⟩
        intro j hj hje
        rcases List.mem_cons.mp hj with rfl | hj2
        · exact absurd hje hemp
        · exact hall j hj2 hje
      · refine Or.inr ⟨m, List.mem_cons_of_mem i hmL, hmemp, hres, hlt2, ?_, ?_⟩
        · intro j hj hje
          rcases List.mem_cons.mp hj with rfl | hj2
          · exact absurd hje hemp
          · exact hmax j hj2 hje
        · intro j hj hjlt hje
          rcases List.mem_cons.mp hj with rfl | hj2
          · exact absurd hje hemp
          · exact hfirst j hj2 hjlt hje

/-- Minimizing mirror of `mmLoopMax_spec`: the loop either keeps the
accumulator (no empty scanned cell goes below `bs`), or returns the first
empty cell attaining the minimum child score, strictly below `bs`. -/
theorem mmLoopMin_spec (symbol player : Cell) (fuel : Nat) (b : List Cell) :
    ∀ L : List Nat, L.Sorted (· < ·) →
    ∀ (bs : Int) (bm : Option Nat),
      ((mmLoop symbol (_minimax symbol fuel) player false L ((bs, bm), b)).1 = (bs, bm) ∧
        ∀ i ∈ L, b.getD i Cell.empty = Cell.empty →
          bs ≤ childValue symbol player true fuel b i) ∨
      (∃ m, m ∈ L ∧ b.getD m Cell.empty = Cell.empty ∧
        (mmLoop symbol (_minimax symbol fuel) player false L ((bs, bm), b)).1 =
          (childValue symbol player true fuel b m, some m) ∧
        childValue symbol player true fuel b m < bs ∧
        (∀ i ∈ L, b.getD i Cell.empty = Cell.empty →
          childValue symbol player true fuel b m ≤ childValue symbol player true fuel b i) ∧
        (∀ j ∈ L, j < m → b.getD j Cell.empty = Cell.empty →
          childValue symbol player true fuel b m < childValue symbol player true fuel b j)) := by
  intro L
  induction L with
  | nil =>
    intro _ bs bm
    exact Or.inl ⟨rfl, by simp⟩
  | cons i rest ih =>
    intro hsort bs bm
    rw [List.sorted_cons] at hsort
    obtain ⟨hlt, hsort'⟩ := hsort
    by_cases hemp : b.getD i Cell.empty = Cell.empty
    · rw [mmLoop_cons_eq symbol player false (_minimax symbol fuel) i rest bs bm b hemp]
      dsimp only
      have hb2 : ((_minimax symbol fuel (b.set i player)
          (if player = symbol then opponent_symbol symbol else symbol) (!false)).2).set
            i Cell.empty = b := by
        rw [_minimax_restores, List.set_set]
        exact set_empty_id b i hemp
      rw [hb2, if_neg (by simp : ¬ (false = true))]
      simp only [Bool.not_false]
      rw [show ((_minimax symbol fuel (b.set i player)
          (if player = symbol then opponent_symbol symbol else symbol) true).1).1
        = childValue symbol player true fuel b i from rfl]
      by_cases hgt : childValue symbol player true fuel b i < bs
      · rw [if_pos hgt]
        rcases ih hsort' (childValue symbol player true fuel b i) (some i) with
          ⟨hres, hall⟩ | ⟨m, hmL, hmemp, hres, hlt2, hmin, hfirst⟩
        · refine Or.inr ⟨i, List.mem_cons_self i rest, hemp, hres, hgt, ?_, ?_⟩
          · intro j hj hje
            rcases List.mem_cons.mp hj with rfl | hj2
            · exact le_refl _
            · exact hall j hj2 hje
          · intro j hj hjlt hje
            rcases List.mem_cons.mp hj with rfl | hj2
            · exact absurd hjlt (lt_irrefl j)
            · exact absurd hjlt (by have := hlt j hj2; omega)
        · refine Or.inr ⟨m, List.mem_cons_of_mem i hmL, hmemp, hres, lt_trans hlt2 hgt, ?_, ?_⟩
          · intro j hj hje
            rcases List.mem_cons.mp hj with rfl | hj2
            · exact le_of_lt hlt2
            · exact hmin j hj2 hje
          · intro j hj hjlt hje
            rcases List.mem_cons.mp hj with rfl | hj2
            · exact hlt2
            · exact hfirst j hj2 hjlt hje
      · rw [if_neg hgt]
        have hle : bs ≤ childValue symbol player true fuel b i := not_lt.mp hgt
        rcases ih hsort' bs bm with
          ⟨hres, hall⟩ | ⟨m, hmL, hmemp, hres, hlt2, hmin, hfirst⟩
        · refine Or.inl ⟨hres, ?_⟩
          intro j hj hje
          rcases List.mem_cons.mp hj with rfl | hj2
          · exact hle
          · exact hall j hj2 hje
        · refine Or.inr ⟨m, List.mem_cons_of_mem i hmL, hmemp, hres, hlt2, ?_, ?_⟩
          · intro j hj hje
            rcases List.mem_cons.mp hj with rfl | hj2
            · exact le_of_lt (lt_of_lt_of_le hlt2 hle)
            · exact hmin j hj2 hje
          · intro j hj hjlt hje
            rcases List.mem_cons.mp hj with rfl | hj2
            · exact lt_of_lt_of_le hlt2 hle
            · exact hfirst j hj2 hjlt hje
    · rw [mmLoop_cons_skip symbol player false (_minimax symbol fuel) i rest bs bm b hemp]
      rcases ih hsort' bs bm with
        ⟨hres, hall⟩ | ⟨m, hmL, hmemp, hres, hlt2, hmin, hfirst⟩
      · refine Or.inl ⟨hres, ?_⟩
        intro j hj hje
        rcases List.mem_cons.mp hj with rfl | hj2
        · exact absurd hje hemp
        · exact hall j hj2 hje
      · refine Or.inr ⟨m, List.mem_cons_of_mem i hmL, hmemp, hres, hlt2, ?_, ?_⟩
        · intro j hj hje
          rcases List.mem_cons.mp hj with rfl | hj2
          · exact absurd hje hemp
          · exact hmin j hj2 hje
        · intro j hj hjlt hje
          rcases List.mem_cons.mp hj with rfl | hj2
          · exact absurd hje hemp
          · exact hfirst j hj2 hjlt hje

/-- Source `_evaluate_board` only produces 0, 10 or -10. -/
theorem evaluate_board_cases (symbol : Cell) (board : List Cell) :
    _evaluate_board symbol board = 0 ∨ _evaluate_board symbol board = 10 ∨
      _evaluate_board symbol board = -10 := by
  unfold _evaluate_board
  generalize WIN_PATTERNS = pats
  induction pats with
  | nil => exact Or.inl rfl
  | cons t rest ih =>
    obtain ⟨a, bb, c⟩ := t
    unfold evalPatterns
    split
    · split
      · exact Or.inr (Or.inl rfl)
      · exact Or.inr (Or.inr rfl)
    · exact ih

/-- A board that contains an empty cell has one at an index below its
length. -/
theorem exists_empty_of_contains : ∀ (b : List Cell), b.contains Cell.empty = true →
    ∃ i, i < b.length ∧ b.getD i Cell.empty = Cell.empty := by
  intro b
  induction b with
  | nil => intro h; exact absurd h (by simp)
  | cons x xs ih =>
    intro h
    rw [List.contains_cons] at h
    rcases Bool.or_eq_true_iff.mp h with h1 | h2
    · exact ⟨0, by simp, by simpa [List.getD] using (eq_of_beq h1).symm⟩
    · obtain ⟨i, hi, he⟩ := ih h2
      exact ⟨i + 1, by simpa using hi, by simpa [List.getD] using he⟩

/-- Unfolding of a non-terminal maximizing `_minimax` node. -/
theorem minimax_succ_max_eq (symbol : Cell) (fuel : Nat) (b : List Cell) (p : Cell)
    (h : ¬ (_evaluate_board symbol b ≠ 0 ∨ ¬ b.contains Cell.empty)) :
    _minimax symbol (fuel + 1) b p true =
      mmLoop symbol (_minimax symbol fuel) p true (List.range 9) (((-1000 : Int), none), b) := by
  simp only [_minimax]
  rw [if_neg h]
  simp

/-- Unfolding of a non-terminal minimizing `_minimax` node. -/
theorem minimax_succ_min_eq (symbol : Cell) (fuel : Nat) (b : List Cell) (p : Cell)
    (h : ¬ (_evaluate_board symbol b ≠ 0 ∨ ¬ b.contains Cell.empty)) :
    _minimax symbol (fuel + 1) b p false =
      mmLoop symbol (_minimax symbol fuel) p false (List.range 9) (((1000 : Int), none), b) := by
  simp only [_minimax]
  rw [if_neg h]
  simp

/-- Unfolding of a terminal `_minimax` node. -/
theorem minimax_succ_terminal_eq (symbol : Cell) (fuel : Nat) (b : List Cell) (p : Cell)
    (maxi : Bool) (h : _evaluate_board symbol b ≠ 0 ∨ ¬ b.contains Cell.empty) :
    _minimax symbol (fuel + 1) b p maxi = ((_evaluate_board symbol b, none), b) := by
  simp only [_minimax]
  rw [if_pos h]

/-- Scores returned by `_minimax` on a nine-cell board lie in `[-10, 10]`:
the `±1000` sentinels never escape the loop. -/
theorem minimax_bounds (symbol : Cell) : ∀ (fuel : Nat) (b : List Cell) (p : Cell) (maxi : Bool),
    b.length = 9 →
    -10 ≤ ((_minimax symbol fuel b p maxi).1).1 ∧ ((_minimax symbol fuel b p maxi).1).1 ≤ 10 := by
  intro fuel
  induction fuel with
  | zero =>
    intro b p maxi _
    have h0 : ((_minimax symbol 0 b p maxi).1).1 = _evaluate_board symbol b := rfl
    rw [h0]
    rcases evaluate_board_cases symbol b with h | h | h <;> rw [h] <;> omega
  | succ n ih =>
    intro b p maxi hlen
    by_cases hterm : (_evaluate_board symbol b ≠ 0 ∨ ¬ b.contains Cell.empty)
    · rw [minimax_succ_terminal_eq symbol n b p maxi hterm]
      dsimp only
      rcases evaluate_board_cases symbol b with h | h | h <;> rw [h] <;> omega
    · have hcont : b.contains Cell.empty = true := by
        rcases not_or.mp hterm with ⟨-, h2⟩
        exact not_not.mp h2
      obtain ⟨i0, hi0, hemp0⟩ := exists_empty_of_contains b hcont
      have hi09 : i0 < 9 := by omega
      have hchild : ∀ (mx : Bool),
          -10 ≤ childValue symbol p mx n b i0 ∧ childValue symbol p mx n b i0 ≤ 10 := by
        intro mx
        exact ih (b.set i0 p) (if p = symbol then opponent_symbol symbol else symbol) mx
          (by rw [List.length_set]; exact hlen)
      cases maxi
      · rw [minimax_succ_min_eq symbol n b p hterm]
        rcases mmLoopMin_spec symbol p n b (List.range 9) (List.sorted_lt_range 9) 1000 none with
          ⟨hres, hall⟩ | ⟨m, hmL, hmemp, hres, hlt2, hmin, hfirst⟩
        · exfalso
          have hcv := hall i0 (List.mem_range.mpr hi09) hemp0
          have hcb := (hchild true).2
          omega
        · rw [hres]
          dsimp only
          exact ih (b.set m p) (if p = symbol then opponent_symbol symbol else symbol) true
            (by rw [List.length_set]; exact hlen)
      · rw [minimax_succ_max_eq symbol n b p hterm]
        rcases mmLoopMax_spec symbol p n b (List.range 9) (List.sorted_lt_range 9) (-1000) none with
          ⟨hres, hall⟩ | ⟨m, hmL, hmemp, hres, hlt2, hmax, hfirst⟩
        · exfalso
          have hcv := hall i0 (List.mem_range.mpr hi09) hemp0
          have hcb := (hchild false).1
          omega
        · rw [hres]
          dsimp only
          exact ih (b.set m p) (if p = symbol then opponent_symbol symbol else symbol) false
            (by rw [List.length_set]; exact hlen)

/-- A non-terminal maximizing `_minimax` node returns the first empty cell
attaining the maximum child score. -/
theorem minimax_max_spec (symbol player : Cell) (fuel : Nat) (b : List Cell)
    (hlen : b.length = 9) (heval : _evaluate_board symbol b = 0)
    (hcont : b.contains Cell.empty = true) :
    ∃ m, m < 9 ∧ b.getD m Cell.empty = Cell.empty ∧
      (_minimax symbol (fuel + 1) b player true).1 =
        (childValue symbol player false fuel b m, some m) ∧
      (∀ i, i < 9 → b.getD i Cell.empty = Cell.empty →
        childValue symbol player false fuel b i ≤ childValue symbol player false fuel b m) ∧
      (∀ j, j < m → b.getD j Cell.empty = Cell.empty →
        childValue symbol player false fuel b j < childValue symbol player false fuel b m) := by
  have hterm : ¬ (_evaluate_board symbol b ≠ 0 ∨ ¬ b.contains Cell.empty) := by
    rw [not_or]
    exact ⟨not_not.mpr heval, not_not.mpr hcont⟩
  rw [minimax_succ_max_eq symbol fuel b player hterm]
  obtain ⟨i0, hi0, hemp0⟩ := exists_empty_of_contains b hcont
  have hi09 : i0 < 9 := by omega
  rcases mmLoopMax_spec symbol player fuel b (List.range 9) (List.sorted_lt_range 9)
      (-1000) none with
    ⟨hres, hall⟩ | ⟨m, hmL, hmemp, hres, hlt2, hmax, hfirst⟩
  · exfalso
    have hcv := hall i0 (List.mem_range.mpr hi09) hemp0
    have hcb := (minimax_bounds symbol fuel (b.set i0 player)
      (if player = symbol then opponent_symbol symbol else symbol) false
      (by rw [List.length_set]; exact hlen)).1
    have hdef : childValue symbol player false fuel b i0 =
        ((_minimax symbol fuel (b.set i0 player)
          (if player = symbol then opponent_symbol symbol else symbol) false).1).1 := rfl
    rw [hdef] at hcv
    omega
  · refine ⟨m, List.mem_range.mp hmL, hmemp, hres, ?_, ?_⟩
    · exact fun i hi hie => hmax i (List.mem_range.mpr hi) hie
    · intro j hjm hje
      have hj9 : j < 9 := by have := List.mem_range.mp hmL; omega
      exact hfirst j (List.mem_range.mpr hj9) hjm hje

/-- A non-terminal minimizing `_minimax` node returns the first empty cell
attaining the minimum child score. -/
theorem minimax_min_spec (symbol player : Cell) (fuel : Nat) (b : List Cell)
    (hlen : b.length = 9) (heval : _evaluate_board symbol b = 0)
    (hcont : b.contains Cell.empty = true) :
    ∃ m, m < 9 ∧ b.getD m Cell.empty = Cell.empty ∧
      (_minimax symbol (fuel + 1) b player false).1 =
        (childValue symbol player true fuel b m, some m) ∧
      (∀ i, i < 9 → b.getD i Cell.empty = Cell.empty →
        childValue symbol player true fuel b m ≤ childValue symbol player true fuel b i) ∧
      (∀ j, j < m → b.getD j Cell.empty = Cell.empty →
        childValue symbol player true fuel b m < childValue symbol player true fuel b j) := by
  have hterm : ¬ (_evaluate_board symbol b ≠ 0 ∨ ¬ b.contains Cell.empty) := by
    rw [not_or]
    exact ⟨not_not.mpr heval, not_not.mpr hcont⟩
  rw [minimax_succ_min_eq symbol fuel b player hterm]
  obtain ⟨i0, hi0, hemp0⟩ := exists_empty_of_contains b hcont
  have hi09 : i0 < 9 := by omega
  rcases mmLoopMin_spec symbol player fuel b (List.range 9) (List.sorted_lt_range 9)
      1000 none with
    ⟨hres, hall⟩ | ⟨m, hmL, hmemp, hres, hlt2, hmin, hfirst⟩
  · exfalso
    have hcv := hall i0 (List.mem_range.mpr hi09) hemp0
    have hcb := (minimax_bounds symbol fuel (b.set i0 player)
      (if player = symbol then opponent_symbol symbol else symbol) true
      (by rw [List.length_set]; exact hlen)).2
    have hdef : childValue symbol player true fuel b i0 =
        ((_minimax symbol fuel (b.set i0 player)
          (if player = symbol then opponent_symbol symbol else symbol) true).1).1 := rfl
    rw [hdef] at hcv
    omega
  · refine ⟨m, List.mem_range.mp hmL, hmemp, hres, ?_, ?_⟩
    · exact fun i hi hie => hmin i (List.mem_range.mpr hi) hie
    · intro j hjm hje
      have hj9 : j < 9 := by have := List.mem_range.mp hmL; omega
      exact hfirst j (List.mem_range.mpr hj9) hjm hje

/-- C5: on a non-terminal nine-cell board, in both the maximizing and the
minimizing role, `_minimax` returns some move; that move is the
lowest-index empty cell achieving the best child score for the mover: no
other empty cell beats it, and every smaller-index empty cell is strictly
worse, because the scan keeps only strictly better scores. -/
theorem minimax_lowest_index_tiebreak (symbol player : Cell) (fuel : Nat) (b : List Cell)
    (hlen : b.length = 9) (heval : _evaluate_board symbol b = 0)
    (hcont : b.contains Cell.empty = true) :
    (∃ m, m < 9 ∧ b.getD m Cell.empty = Cell.empty ∧
      (_minimax symbol (fuel + 1) b player true).1 =
        (childValue symbol player false fuel b m, some m) ∧
      (∀ i, i < 9 → b.getD i Cell.empty = Cell.empty →
        childValue symbol player false fuel b i ≤ childValue symbol player false fuel b m) ∧
      (∀ j, j < m → b.getD j Cell.empty = Cell.empty →
        childValue symbol player false fuel b j < childValue symbol player false fuel b m)) ∧
    (∃ m, m < 9 ∧ b.getD m Cell.empty = Cell.empty ∧
      (_minimax symbol (fuel + 1) b player false).1 =
        (childValue symbol player true fuel b m, some m) ∧
      (∀ i, i < 9 → b.getD i Cell.empty = Cell.empty →
        childValue symbol player true fuel b m ≤ childValue symbol player true fuel b i) ∧
      (∀ j, j < m → b.getD j Cell.empty = Cell.empty →
        childValue symbol player true fuel b m < childValue symbol player true fuel b j)) :=
  ⟨minimax_max_spec symbol player fuel b hlen heval hcont,
   minimax_min_spec symbol player fuel b hlen heval hcont⟩

/-- Witness for `minimax_lowest_index_tiebreak` on the empty board at
fuel 1. -/
theorem minimax_lowest_index_tiebreak_witness :
    (∃ m, m < 9 ∧ (List.replicate 9 Cell.empty).getD m Cell.empty = Cell.empty ∧
      (_minimax Cell.X (0 + 1) (List.replicate 9 Cell.empty) Cell.X true).1 =
        (childValue Cell.X Cell.X false 0 (List.replicate 9 Cell.empty) m, some m) ∧
      (∀ i, i < 9 → (List.replicate 9 Cell.empty).getD i Cell.empty = Cell.empty →
        childValue Cell.X Cell.X false 0 (List.replicate 9 Cell.empty) i ≤
          childValue Cell.X Cell.X false 0 (List.replicate 9 Cell.empty) m) ∧
      (∀ j, j < m → (List.replicate 9 Cell.empty).getD j Cell.empty = Cell.empty →
        childValue Cell.X Cell.X false 0 (List.replicate 9 Cell.empty) j <
          childValue Cell.X Cell.X false 0 (List.replicate 9 Cell.empty) m)) ∧
    (∃ m, m < 9 ∧ (List.replicate 9 Cell.empty).getD m Cell.empty = Cell.empty ∧
      (_minimax Cell.X (0 + 1) (List.replicate 9 Cell.empty) Cell.X false).1 =
        (childValue Cell.X Cell.X true 0 (List.replicate 9 Cell.empty) m, some m) ∧
      (∀ i, i < 9 → (List.replicate 9 Cell.empty).getD i Cell.empty = Cell.empty →
        childValue Cell.X Cell.X true 0 (List.replicate 9 Cell.empty) m ≤
          childValue Cell.X Cell.X true 0 (List.replicate 9 Cell.empty) i) ∧
      (∀ j, j < m → (List.replicate 9 Cell.empty).getD j Cell.empty = Cell.empty →
        childValue Cell.X Cell.X true 0 (List.replicate 9 Cell.empty) m <
          childValue Cell.X Cell.X true 0 (List.replicate 9 Cell.empty) j)) :=
  minimax_lowest_index_tiebreak Cell.X Cell.X 0 (List.replicate 9 Cell.empty)
    (by decide) (by decide) (by decide)

/-- The `_minimax` loop only depends on the recursive call's behaviour on
the boards it actually explores. -/
theorem mmLoop_congr (symbol player : Cell) (maxi : Bool)
    (mm1 mm2 : List Cell → Cell → Bool → ((Int × Option Nat) × List Cell))
    (hr1 : ∀ b p m, (mm1 b p m).2 = b)
    (b : List Cell)
    (hagree : ∀ i, i < 9 → b.getD i Cell.empty = Cell.empty → ∀ m',
      mm1 (b.set i player) (if player = symbol then opponent_symbol symbol else symbol) m' =
      mm2 (b.set i player) (if player = symbol then opponent_symbol symbol else symbol) m') :
    ∀ (L : List Nat), (∀ i ∈ L, i < 9) →
    ∀ (bs : Int) (bm : Option Nat),
      mmLoop symbol mm1 player maxi L ((bs, bm), b) =
        mmLoop symbol mm2 player maxi L ((bs, bm), b) := by
  intro L
  induction L with
  | nil => intro _ bs bm; rfl
  | cons i rest ih =>
    intro hL bs bm
    have hrest : ∀ i2 ∈ rest, i2 < 9 := fun i2 h2 => hL i2 (List.mem_cons_of_mem i h2)
    by_cases hemp : b.getD i Cell.empty = Cell.empty
    · rw [mmLoop_cons_eq symbol player maxi mm1 i rest bs bm b hemp,
        mmLoop_cons_eq symbol player maxi mm2 i rest bs bm b hemp]
      dsimp only
      have hi9 := hL i (List.mem_cons_self i rest)
      rw [← hagree i hi9 hemp (!maxi)]
      have hb2 : ((mm1 (b.set i player)
          (if player = symbol then opponent_symbol symbol else symbol) (!maxi)).2).set
            i Cell.empty = b := by
        rw [hr1, List.set_set]
        exact set_empty_id b i hemp
      rw [hb2]
      cases maxi
      · rw [if_neg (by simp : ¬ ((false : Bool) = true)),
          if_neg (by simp : ¬ ((false : Bool) = true))]
        split
        all_goals split
        all_goals exact ih hrest _ _
      · rw [if_pos rfl, if_pos rfl]
        split
        all_goals split
        all_goals exact ih hrest _ _
    · rw [mmLoop_cons_skip symbol player maxi mm1 i rest bs bm b hemp,
        mmLoop_cons_skip symbol player maxi mm2 i rest bs bm b hemp]
      exact ih hrest bs bm

/-- The next player handed to the recursive `_minimax` call is a real
mark whenever symbol and player are. -/
theorem next_player_ne_empty (symbol player : Cell) (hsym : symbol ≠ Cell.empty) :
    (if player = symbol then opponent_symbol symbol else symbol) ≠ Cell.empty := by
  split
  · unfold opponent_symbol
    split <;> simp
  · exact hsym

/-- Source `_minimax` does not depend on the fuel as long as it at least covers
the number of empty cells. -/
theorem minimax_fuel_inv (symbol : Cell) (hsym : symbol ≠ Cell.empty) :
    ∀ (f g : Nat) (b : List Cell) (p : Cell) (maxi : Bool),
    p ≠ Cell.empty → b.length = 9 →
    b.count Cell.empty ≤ f → b.count Cell.empty ≤ g →
    _minimax symbol f b p maxi = _minimax symbol g b p maxi := by
  intro f
  induction f with
  | zero =>
    intro g b p maxi _hp hlen hf hg
    have hc0 : b.count Cell.empty = 0 := by omega
    have hmem : Cell.empty ∉ b := List.count_eq_zero.mp hc0
    have hnc : ¬ b.contains Cell.empty = true := fun hcon => hmem ((contains_empty_iff b).mp hcon)
    cases g with
    | zero => rfl
    | succ g2 =>
      rw [minimax_succ_terminal_eq symbol g2 b p maxi (Or.inr hnc)]
      rfl
  | succ n ih =>
    intro g b p maxi hp hlen hf hg
    by_cases hterm : (_evaluate_board symbol b ≠ 0 ∨ ¬ b.contains Cell.empty)
    · rw [minimax_succ_terminal_eq symbol n b p maxi hterm]
      cases g with
      | zero => rfl
      | succ g2 => rw [minimax_succ_terminal_eq symbol g2 b p maxi hterm]
    · have hcont : b.contains Cell.empty = true := not_not.mp (not_or.mp hterm).2
      have hpos : 1 ≤ b.count Cell.empty := by
        have hmem := (contains_empty_iff b).mp hcont
        have hne : ¬ b.count Cell.empty = 0 := fun h0 => (List.count_eq_zero.mp h0) hmem
        omega
      cases g with
      | zero => exact absurd hg (by omega)
      | succ g2 =>
        have hag : ∀ i, i < 9 → b.getD i Cell.empty = Cell.empty → ∀ m',
            _minimax symbol n (b.set i p)
              (if p = symbol then opponent_symbol symbol else symbol) m' =
            _minimax symbol g2 (b.set i p)
              (if p = symbol then opponent_symbol symbol else symbol) m' := by
          intro i hi9 hie m'
          have hset := count_empty_set b i p (by omega) hie hp
          exact ih g2 (b.set i p) _ m' (next_player_ne_empty symbol p hsym)
            (by rw [List.length_set]; exact hlen) (by omega) (by omega)
        cases maxi
        · rw [minimax_succ_min_eq symbol n b p hterm, minimax_succ_min_eq symbol g2 b p hterm]
          exact mmLoop_congr symbol p false (_minimax symbol n) (_minimax symbol g2)
            (fun b1 p1 m1 => _minimax_restores symbol n b1 p1 m1) b hag (List.range 9)
            (fun i hi => List.mem_range.mp hi) 1000 none
        · rw [minimax_succ_max_eq symbol n b p hterm, minimax_succ_max_eq symbol g2 b p hterm]
          exact mmLoop_congr symbol p true (_minimax symbol n) (_minimax symbol g2)
            (fun b1 p1 m1 => _minimax_restores symbol n b1 p1 m1) b hag (List.range 9)
            (fun i hi => List.mem_range.mp hi) (-1000) none

/-- The win scan of `_update_game_state` and the evaluation of
`SmartAI._evaluate_board` walk the same pattern list with the same test,
so they agree on whether and for whom the first completed line exists. -/
theorem scan_eval (symbol : Cell) (b : List Cell) :
    ∀ pats : List (Nat × Nat × Nat),
      (updateScan b pats = none → evalPatterns symbol b pats = 0) ∧
      (∀ w p, updateScan b pats = some (w, p) →
        w ≠ Cell.empty ∧
        evalPatterns symbol b pats = (if w = symbol then 10 else -10)) := by
  intro pats
  induction pats with
  | nil =>
    refine ⟨fun _ => rfl, fun w p h => absurd h ?_⟩
    simp [updateScan]
  | cons t rest ih =>
    obtain ⟨a, bb, c⟩ := t
    constructor
    · intro h
      unfold updateScan at h
      unfold evalPatterns
      split
      · rename_i hcond
        rw [if_pos hcond] at h
        exact absurd h (by simp)
      · rename_i hcond
        rw [if_neg hcond] at h
        exact ih.1 h
    · intro w p h
      unfold updateScan at h
      unfold evalPatterns
      split
      · rename_i hcond
        rw [if_pos hcond] at h
        injection h with h1
        injection h1 with hw hp
        subst hw
        exact ⟨hcond.2.2, rfl⟩
      · rename_i hcond
        rw [if_neg hcond] at h
        exact ih.2 w p h

/-- Soundness of the certificate check: if the scripted strategy `σ`
survives every opponent line of play without ever reaching a negative
evaluation, then the minimax value of the position (for `X`, with the
mover given by `maxi`) is non-negative. -/
theorem certCheck_sound (σ : List Cell → Nat) : ∀ (fuel : Nat) (b : List Cell) (maxi : Bool),
    b.length = 9 → b.count Cell.empty ≤ fuel →
    certCheck σ fuel b maxi = true →
    0 ≤ ((_minimax Cell.X fuel b (if maxi then Cell.X else Cell.O) maxi).1).1 := by
  intro fuel
  induction fuel with
  | zero =>
    intro b maxi hlen hcnt hc
    have h0 : ((_minimax Cell.X 0 b (if maxi then Cell.X else Cell.O) maxi).1).1 =
        _evaluate_board Cell.X b := rfl
    rw [h0]
    exact of_decide_eq_true hc
  | succ n ih =>
    intro b maxi hlen hcnt hc
    unfold certCheck at hc
    by_cases hterm : (_evaluate_board Cell.X b ≠ 0 ∨ ¬ b.contains Cell.empty)
    · rw [if_pos hterm] at hc
      rw [minimax_succ_terminal_eq Cell.X n b _ maxi hterm]
      exact of_decide_eq_true hc
    · rw [if_neg hterm] at hc
      have heval : _evaluate_board Cell.X b = 0 := not_not.mp (not_or.mp hterm).1
      have hcont : b.contains Cell.empty = true := not_not.mp (not_or.mp hterm).2
      cases maxi
      · rw [if_neg (by simp : ¬ ((false : Bool) = true))] at hc
        show 0 ≤ ((_minimax Cell.X (n + 1) b Cell.O false).1).1
        obtain ⟨m, hm9, hmemp, hres, hmin, hfirst⟩ :=
          minimax_min_spec Cell.X Cell.O n b hlen heval hcont
        rw [hres]
        dsimp only
        have hcm := List.all_eq_true.mp hc m (List.mem_range.mpr hm9)
        rw [if_pos hmemp] at hcm
        have hset := count_empty_set b m Cell.O (by omega) hmemp (by simp)
        have hchild := ih (b.set m Cell.O) true
          (by rw [List.length_set]; exact hlen) (by omega) hcm
        exact hchild
      · rw [if_pos rfl] at hc
        rw [Bool.and_eq_true, Bool.and_eq_true] at hc
        obtain ⟨⟨hs1, hs2⟩, hs3⟩ := hc
        have hσ9 : σ b < 9 := of_decide_eq_true hs1
        have hσe : b.getD (σ b) Cell.empty = Cell.empty := of_decide_eq_true hs2
        show 0 ≤ ((_minimax Cell.X (n + 1) b Cell.X true).1).1
        obtain ⟨m, hm9, hmemp, hres, hmax, hfirst⟩ :=
          minimax_max_spec Cell.X Cell.X n b hlen heval hcont
        rw [hres]
        dsimp only
        have hset := count_empty_set b (σ b) Cell.X (by omega) hσe (by simp)
        have hchild := ih (b.set (σ b) Cell.X) false
          (by rw [List.length_set]; exact hlen) (by omega) hs3
        have hcv : (0 : Int) ≤ childValue Cell.X Cell.X false n b (σ b) := hchild
        have hle := hmax (σ b) hσ9 hσe
        omega

set_option maxRecDepth 100000
set_option maxHeartbeats 4000000

/-- The win/block/centre/corner/edge script survives every opponent reply
from the empty board: verified by exhaustive kernel evaluation (246 nodes). -/
theorem certStrat_certified : certCheck certStrat 9 (List.replicate 9 Cell.empty) true = true := by
  decide

/-- The minimax value of the empty board for `X` to move is not losing. -/
theorem init_value_nonneg :
    0 ≤ ((_minimax Cell.X 9 (List.replicate 9 Cell.empty) Cell.X true).1).1 := by
  have h := certCheck_sound certStrat 9 (List.replicate 9 Cell.empty) true (by decide) (by decide)
    certStrat_certified
  have he : (if (true : Bool) then Cell.X else Cell.O) = Cell.X := rfl
  rw [he] at h
  exact h

/-- A board with at least one empty cell contains the empty cell. -/
theorem contains_of_count_pos (b : List Cell) (h : 1 ≤ b.count Cell.empty) :
    b.contains Cell.empty = true := by
  by_contra hnc
  have hmem : Cell.empty ∉ b := fun hm => hnc ((contains_empty_iff b).mpr hm)
  rw [List.count_eq_zero_of_not_mem hmem] at h
  omega

/-- One accepted move from a safe ongoing position yields a safe
position: provided the child position keeps a non-negative minimax value
for `X`, the new state keeps the whole playout invariant. -/
theorem make_move_INV_step (g : TicTacToe) (m : Nat)
    (hlen : g.board.length = 9)
    (hcnt : g.moves_count + g.board.count Cell.empty = 9)
    (ho : g.game_state = GameState.ONGOING)
    (hcurXO : g.current_player = Cell.X ∨ g.current_player = Cell.O)
    (hm9 : m < 9) (hemp : g.board.getD m Cell.empty = Cell.empty)
    (hcv : 0 ≤ ((_minimax Cell.X (g.board.count Cell.empty - 1)
        (g.board.set m g.current_player)
        (if g.current_player = Cell.X then Cell.O else Cell.X)
        (decide ((if g.current_player = Cell.X then Cell.O else Cell.X) = Cell.X))).1).1) :
    INV (g.make_move (m : Int)).2 := by
  have hti : ((m : Int)).toNat = m := Int.toNat_natCast m
  have hvp : (0 ≤ (m : Int) ∧ (m : Int) ≤ 8 ∧
      g.board.getD ((m : Int)).toNat Cell.empty = Cell.empty ∧
      g.game_state = GameState.ONGOING) := ⟨by omega, by omega, by rwa [hti], ho⟩
  obtain ⟨-, hb, hmv, hs, hcp, -, -⟩ := (make_move_fields g ((m : Int))).2 hvp
  have hAb : (afterPlacement g (m : Int)).board = g.board.set m g.current_player := by
    show g.board.set ((m : Int)).toNat g.current_player = g.board.set m g.current_player
    rw [hti]
  have hAm : (afterPlacement g (m : Int)).moves_count = g.moves_count + 1 := rfl
  have hAg : (afterPlacement g (m : Int)).game_state = g.game_state := rfl
  have hb2 : ((g.make_move (m : Int)).2).board = g.board.set m g.current_player := by
    rw [hb, hti]
  have hcur_ne : g.current_player ≠ Cell.empty := by
    rcases hcurXO with h | h <;> simp [h]
  have hset := count_empty_set g.board m g.current_player (by omega) hemp hcur_ne
  have hlen2 : ((g.make_move (m : Int)).2).board.length = 9 := by
    rw [hb2, List.length_set]
    exact hlen
  have hcnt2 : ((g.make_move (m : Int)).2).moves_count +
      ((g.make_move (m : Int)).2).board.count Cell.empty = 9 := by
    rw [hmv, hb2]
    omega
  rcases hscan : updateScan ((afterPlacement g (m : Int)).board) WIN_PATTERNS with _ | ⟨w, p⟩
  · -- no completed line after the move
    have hu : (afterPlacement g (m : Int))._update_game_state.game_state =
        (if (afterPlacement g (m : Int)).moves_count = 9 then GameState.DRAW
         else (afterPlacement g (m : Int)).game_state) := by
      unfold TicTacToe._update_game_state
      rw [hscan]
      dsimp only
      split
      · rfl
      · rfl
    have hev0 : _evaluate_board Cell.X (g.board.set m g.current_player) = 0 := by
      have h1 := (scan_eval Cell.X ((afterPlacement g (m : Int)).board) WIN_PATTERNS).1 hscan
      rw [hAb] at h1
      exact h1
    by_cases h9 : g.moves_count + 1 = 9
    · have hu2 : (afterPlacement g (m : Int))._update_game_state.game_state = GameState.DRAW := by
        rw [hu, hAm, if_pos h9]
      refine ⟨hlen2, hcnt2, ?_, ?_, ?_⟩
      · rw [hcp, hu2, if_neg (by simp : ¬ (GameState.DRAW = GameState.ONGOING))]
        exact hcurXO
      · rw [hs, hu2]
        simp
      · intro hON
        rw [hs, hu2] at hON
        exact absurd hON (by simp)
    · have hu2 : (afterPlacement g (m : Int))._update_game_state.game_state =
          GameState.ONGOING := by
        rw [hu, hAm, if_neg h9, hAg, ho]
      refine ⟨hlen2, hcnt2, ?_, ?_, ?_⟩
      · rw [hcp, hu2, if_pos rfl]
        rcases hcurXO with h | h <;> simp [h]
      · rw [hs, hu2]
        simp
      · intro _
        refine ⟨?_, ?_, ?_⟩
        · rw [hb2]
          exact hev0
        · rw [hb2]
          exact contains_of_count_pos _ (by omega)
        · rw [hb2, hcp, hu2, if_pos rfl]
          have hcc : (g.board.set m g.current_player).count Cell.empty =
              g.board.count Cell.empty - 1 := by omega
          rw [hcc]
          exact hcv
  · -- a completed line: its mark cannot be O
    have hu : (afterPlacement g (m : Int))._update_game_state.game_state =
        (if w = Cell.X then GameState.X_WINS else GameState.O_WINS) := by
      unfold TicTacToe._update_game_state
      rw [hscan]
    have hwe := (scan_eval Cell.X ((afterPlacement g (m : Int)).board) WIN_PATTERNS).2 w p hscan
    have hwX : w = Cell.X := by
      rcases hw : w with _ | _ | _
      · exact absurd hw hwe.1
      · rfl
      · exfalso
        have hev : _evaluate_board Cell.X (g.board.set m g.current_player) = -10 := by
          have h1 := hwe.2
          rw [hAb, hw] at h1
          simpa [_evaluate_board] using h1
        rcases hfc : g.board.count Cell.empty - 1 with _ | f2
        · rw [hfc] at hcv
          have h0 : ((_minimax Cell.X 0 (g.board.set m g.current_player)
              (if g.current_player = Cell.X then Cell.O else Cell.X)
              (decide ((if g.current_player = Cell.X then Cell.O else Cell.X) = Cell.X))).1).1
              = _evaluate_board Cell.X (g.board.set m g.current_player) := rfl
          rw [h0, hev] at hcv
          omega
        · rw [hfc, minimax_succ_terminal_eq Cell.X f2 (g.board.set m g.current_player) _ _
            (Or.inl (by rw [hev]; norm_num))] at hcv
          dsimp only at hcv
          rw [hev] at hcv
          omega
    subst hwX
    have hu2 : (afterPlacement g (m : Int))._update_game_state.game_state =
        GameState.X_WINS := by
      rw [hu, if_pos rfl]
    refine ⟨hlen2, hcnt2, ?_, ?_, ?_⟩
    · rw [hcp, hu2, if_neg (by simp : ¬ (GameState.X_WINS = GameState.ONGOING))]
      exact hcurXO
    · rw [hs, hu2]
      simp
    · intro hON
      rw [hs, hu2] at hON
      exact absurd hON (by simp)

/-- On its turn in a safe ongoing position, `SmartAI` (as `X`, hard)
returns a move, and playing it keeps the invariant. -/
theorem stepX (g : TicTacToe) (hINV : INV g) (ho : g.game_state = GameState.ONGOING)
    (hcur : g.current_player = Cell.X) :
    ∃ m : Nat, SmartAI.get_move Cell.X g = some m ∧ INV (g.make_move (m : Int)).2 := by
  obtain ⟨hlen, hcnt, hcurXO, -, himp⟩ := hINV
  obtain ⟨heval, hcont, hval⟩ := himp ho
  have hpos : 1 ≤ g.board.count Cell.empty := by
    have hmem := (contains_empty_iff g.board).mp hcont
    have hne : ¬ g.board.count Cell.empty = 0 := fun h0 => (List.count_eq_zero.mp h0) hmem
    omega
  obtain ⟨k2, hk⟩ : ∃ k2, g.board.count Cell.empty = k2 + 1 :=
    ⟨g.board.count Cell.empty - 1, by omega⟩
  obtain ⟨m, hm9, hmemp, hres, hmax, hfirst⟩ :=
    minimax_max_spec Cell.X Cell.X k2 g.board hlen heval hcont
  rw [hcur, show (decide (Cell.X = Cell.X)) = true from rfl, hk, hres] at hval
  dsimp only at hval
  have hcle : g.board.count Cell.empty ≤ 9 := by
    have h1 := List.count_le_length Cell.empty g.board
    omega
  have hfi := minimax_fuel_inv Cell.X (by simp) 9 (k2 + 1) g.board Cell.X true (by simp)
    hlen (by omega) (by omega)
  have hget : SmartAI.get_move Cell.X g = some m := by
    unfold SmartAI.get_move
    have hcopy : (_minimax Cell.X 9 g.get_board_copy Cell.X true).1 =
        (childValue Cell.X Cell.X false k2 g.board m, some m) := by
      show (_minimax Cell.X 9 g.board Cell.X true).1 = _
      rw [hfi, hres]
    rw [hcopy]
  refine ⟨m, hget, ?_⟩
  apply make_move_INV_step g m hlen hcnt ho hcurXO hm9 hmemp
  rw [hcur, show (if Cell.X = Cell.X then Cell.O else Cell.X) = Cell.O from rfl,
    show (decide (Cell.O = Cell.X)) = false from rfl,
    show g.board.count Cell.empty - 1 = k2 from by omega]
  exact hval

/-- On the opponent's turn in a safe ongoing position, every legal reply
keeps the invariant. -/
theorem stepO (g : TicTacToe) (hINV : INV g) (ho : g.game_state = GameState.ONGOING)
    (hcur : g.current_player = Cell.O) (r : Int) (hvr : g.is_valid_move r = true) :
    INV (g.make_move r).2 := by
  obtain ⟨hlen, hcnt, hcurXO, -, himp⟩ := hINV
  obtain ⟨heval, hcont, hval⟩ := himp ho
  obtain ⟨h0, h8, hemp, -⟩ := (is_valid_move_iff g r).mp hvr
  have hpos : 1 ≤ g.board.count Cell.empty := by
    have hmem := (contains_empty_iff g.board).mp hcont
    have hne : ¬ g.board.count Cell.empty = 0 := fun hz => (List.count_eq_zero.mp hz) hmem
    omega
  obtain ⟨k2, hk⟩ : ∃ k2, g.board.count Cell.empty = k2 + 1 :=
    ⟨g.board.count Cell.empty - 1, by omega⟩
  obtain ⟨mb, hmb9, hmbemp, hres, hmin, hfirst⟩ :=
    minimax_min_spec Cell.X Cell.O k2 g.board hlen heval hcont
  rw [hcur, show (decide (Cell.O = Cell.X)) = false from rfl, hk, hres] at hval
  dsimp only at hval
  have hri : ((r.toNat : Nat) : Int) = r := Int.toNat_of_nonneg h0
  have hr9 : r.toNat < 9 := by omega
  have hcvi : 0 ≤ childValue Cell.X Cell.O true k2 g.board r.toNat :=
    le_trans hval (hmin r.toNat hr9 hemp)
  rw [← hri]
  apply make_move_INV_step g r.toNat hlen hcnt ho hcurXO hr9 hemp
  rw [hcur, show (if Cell.O = Cell.X then Cell.O else Cell.X) = Cell.X from rfl,
    show (decide (Cell.X = Cell.X)) = true from rfl,
    show g.board.count Cell.empty - 1 = k2 from by omega]
  exact hcvi

/-- Along any playout from a position satisfying the invariant, the game
never ends in an `O` win. -/
theorem playout_no_O_win : ∀ (fuel : Nat) (g : TicTacToe) (replies : List Int),
    INV g → (playout fuel g replies).game_state ≠ GameState.O_WINS := by
  intro fuel
  induction fuel with
  | zero => intro g replies hINV; exact hINV.2.2.2.1
  | succ n ih =>
    intro g replies hINV
    unfold playout
    split
    · exact hINV.2.2.2.1
    · rename_i hON2
      have ho : g.game_state = GameState.ONGOING := not_not.mp hON2
      split
      · rename_i hcur
        obtain ⟨m, hget, hINV2⟩ := stepX g hINV ho hcur
        rw [hget]
        exact ih _ _ hINV2
      · rename_i hncur
        have hcur : g.current_player = Cell.O := by
          rcases hINV.2.2.1 with h | h
          · exact absurd h hncur
          · exact h
        cases replies with
        | nil => exact hINV.2.2.2.1
        | cons r rest =>
          dsimp only
          split
          · rename_i hvr
            exact ih _ _ (stepO g hINV ho hcur r hvr)
          · exact hINV.2.2.2.1

/-- C3: when `SmartAI` at full strength plays `X` and moves first from a
fresh game, no sequence of legal opponent replies ever produces an `O`
win: the playout ends in an `X` win, a draw, or an unfinished game, for
every reply sequence and any turn budget. -/
theorem smart_x_never_loses (fuel : Nat) (replies : List Int) :
    (playout fuel TicTacToe.init replies).game_state ≠ GameState.O_WINS := by
  apply playout_no_O_win fuel TicTacToe.init replies
  refine ⟨by decide, by decide, Or.inl rfl, by decide, fun _ => ⟨by decide, by decide, ?_⟩⟩
  rw [show TicTacToe.init.current_player = Cell.X from rfl,
    show (decide (Cell.X = Cell.X)) = true from rfl,
    show TicTacToe.init.board = List.replicate 9 Cell.empty from rfl,
    show (List.replicate 9 Cell.empty).count Cell.empty = 9 from rfl]
  exact init_value_nonneg
